import Mathlib

/-!
# TAU Commander compiler knowledgebase — verification development

Shallow embedding of `packages/tau/cf/compiler/__init__.py`: the compiler
roles, families, the global compiler-info index and the `find` lookup,
together with the static seed tables at the bottom of that module.

Python dictionaries and object references are embedded as association lists
and explicit numeric identities:
* `CompilerInfo` identity (Python object identity, tracked by the
  `TrackedInstance` base class) is embedded as a creation-order `uid`.
* The `TrackedInstance` class-wide instance collection behind
  `CompilerInfo.all()` is embedded as the creation-ordered list
  `Registry.allInfos` (modelled from the spec: the base class that
  "auto-registers every constructed instance into a class-wide collection"
  is not part of the sources; the spec describes registration at
  construction time, and `find`'s exact match returns "the first one
  encountered in registry iteration order").
* The `KeyedRecord` stores behind `CompilerRole.all()` and
  `CompilerFamily.__instances__` are embedded as the keyed lists
  `Registry.roles` and `Registry.families` (modelled from the spec:
  `KeyedRecord` is not part of the sources; it is a process-wide set keyed
  by `keyword` / `name`).
-/

/-- `CompilerRole` (keyword, language, required) from the source class. -/
structure CompilerRole where
  keyword : String
  language : String
  required : Bool
deriving DecidableEq

/-- `CompilerInfo`: command, owning family (by its unique name, breaking the
Python reference cycle), role, and derived `short_descr`.  `uid` is the
creation-order index embedding Python object identity. -/
structure CompilerInfo where
  uid : Nat
  command : String
  familyName : String
  role : CompilerRole
  short_descr : String
deriving DecidableEq

/-- `CompilerFamily`: name, the five flag-template lists copied at
construction, the `_info_by_command` dict and the `_info_by_role` dict
(association lists; role lists are preference-ordered as in the source). -/
structure CompilerFamily where
  name : String
  version_flags : List String
  include_path_flags : List String
  library_path_flags : List String
  link_library_flags : List String
  show_wrapper_flags : List String
  info_by_command : List (String × CompilerInfo)
  info_by_role : List (String × List CompilerInfo)
deriving DecidableEq

/-- The process-wide registry state: the `TrackedInstance` collection of all
`CompilerInfo` ever created (creation order), the `KeyedRecord` collections
of families and roles (registration order). -/
structure Registry where
  nextId : Nat
  allInfos : List CompilerInfo
  families : List CompilerFamily
  roles : List CompilerRole
deriving DecidableEq

/-- `os.path.basename`: keep only the part after the last `/`. -/
def basename (path : String) : String :=
  String.mk (path.data.foldl (fun acc c => if c = '/' then [] else acc ++ [c]) [])

/-- Whether `p` is an initial segment of `l` (contiguous, character-wise). -/
def listStartsWith : List Char → List Char → Bool
  | [], _ => true
  | _ :: _, [] => false
  | a :: p, b :: l => a = b && listStartsWith p l

/-- Python string containment `needle in hay`: `needle` occurs as a
contiguous substring of `hay`. -/
def containsSub (needle : List Char) : List Char → Bool
  | [] => listStartsWith needle []
  | b :: l => listStartsWith needle (b :: l) || containsSub needle l

/-- Python `max(candidates, key=len)` where `len(info)` is
`len(info.command)` (`CompilerInfo.__len__`): fold keeping the current
maximum, replacing only on a strictly greater key, so the first element of
maximal key wins. -/
def maxByLen (c : CompilerInfo) (cs : List CompilerInfo) : CompilerInfo :=
  cs.foldl (fun best x => if best.command.length < x.command.length then x else best) c

/-- The error raised by `find` (`KeyError` in the source, `NotFound` in the
spec's vocabulary). -/
inductive FindError where
  | notFound
deriving DecidableEq

instance : DecidableEq (Except FindError CompilerInfo) := fun a b =>
  match a, b with
  | .ok x, .ok y =>
    if h : x = y then .isTrue (by rw [h]) else .isFalse (by intro hc; cases hc; exact h rfl)
  | .ok _, .error _ => .isFalse (by intro hc; cases hc)
  | .error _, .ok _ => .isFalse (by intro hc; cases hc)
  | .error x, .error y =>
    if h : x = y then .isTrue (by rw [h]) else .isFalse (by intro hc; cases hc; exact h rfl)

/-- `CompilerInfo.find`: strip the directory part, return the first exact
match over the instance collection, otherwise the longest command contained
in the stripped input, otherwise fail.  `index` is the creation-ordered
instance collection (`cls.all()`). -/
def CompilerInfo.find (index : List CompilerInfo) (command : String) :
    Except FindError CompilerInfo :=
  match index.find? (fun i => i.command == basename command) with
  | some i => .ok i
  | none =>
    match index.filter (fun i => containsSub i.command.data (basename command).data) with
    | [] => .error .notFound
    | c :: cs => .ok (maxByLen c cs)

/-- The error raised by `CompilerFamily.add` on a duplicate command
(`InternalError` in the source, `DuplicateRegistration` in the spec's
vocabulary). -/
inductive AddError where
  | duplicate (command : String) (familyName : String)
deriving DecidableEq

/-- Look a family up by name in the keyed family collection. -/
def lookupFam (st : Registry) (name : String) : Option CompilerFamily :=
  st.families.find? (fun f => f.name == name)

/-- `command in self._info_by_command`. -/
def hasCommand (fam : CompilerFamily) (c : String) : Bool :=
  fam.info_by_command.any (fun p => p.1 == c)

/-- `self._info_by_role.setdefault(role.keyword, []).append(info)`. -/
def addToRoleMap (kw : String) (info : CompilerInfo) :
    List (String × List CompilerInfo) → List (String × List CompilerInfo)
  | [] => [(kw, [info])]
  | (k, l) :: rest =>
    if k = kw then (k, l ++ [info]) :: rest else (k, l) :: addToRoleMap kw info rest

/-- `CompilerInfo.__init__`: record the command, family, role and derived
`short_descr`; `uid` is the position in the `TrackedInstance` collection at
creation time. -/
def mkInfo (uid : Nat) (c name : String) (role : CompilerRole) : CompilerInfo :=
  { uid := uid, command := c, familyName := name, role := role
    short_descr := name ++ " " ++ role.language ++ " compiler" }

/-- The two map insertions done for one command inside `CompilerFamily.add`:
`self._info_by_command[command] = info` and the role-map append. -/
def famInsert (fam : CompilerFamily) (c : String) (role : CompilerRole)
    (info : CompilerInfo) : CompilerFamily :=
  { fam with info_by_command := fam.info_by_command ++ [(c, info)]
             info_by_role := addToRoleMap role.keyword info fam.info_by_role }

/-- One loop iteration of `CompilerFamily.add` after the duplicate check:
create the `CompilerInfo` (which `TrackedInstance` records in the global
collection) and insert it into the family's command map and role map. -/
def famAddOne (st : Registry) (name : String) (role : CompilerRole) (c : String) : Registry :=
  { st with
    nextId := st.nextId + 1
    allInfos := st.allInfos ++ [mkInfo st.nextId c name role]
    families := st.families.map (fun f =>
      if f.name = name then famInsert f c role (mkInfo st.nextId c name role) else f) }

/-- `CompilerFamily.add(role, *commands)`: process the commands in order;
on the first command already registered in this family, raise and stop —
earlier commands of the same call stay registered, as in the source, where
the exception propagates after the loop has already mutated state. -/
def famAdd (st : Registry) (name : String) (role : CompilerRole) :
    List String → Registry × Option AddError
  | [] => (st, none)
  | c :: cs =>
    match lookupFam st name with
    | none => (st, none)
    | some fam =>
      if hasCommand fam c then (st, some (.duplicate c name))
      else famAdd (famAddOne st name role c) name role cs

/-- `CompilerRole.__init__` under `KeyedRecord`: register the role in the
process-wide keyed set (keys are unique). -/
def newRole (st : Registry) (keyword language : String) (required : Bool) : Registry :=
  if st.roles.any (fun r => r.keyword == keyword) then st
  else { st with roles := st.roles ++ [⟨keyword, language, required⟩] }

/-- `CompilerFamily.__init__` under `KeyedRecord`: copy each flag-template
list into the instance and register the family in the process-wide keyed
set.  (In this pure embedding `list(x)` is the identity on values; the
aliasing content of the copy is modelled separately by the flag heap
below.) -/
def newFamily (st : Registry) (name : String)
    (vf ipf lpf llf swf : List String) : Registry :=
  if st.families.any (fun f => f.name == name) then st
  else
    { st with families := st.families ++
        [{ name := name, version_flags := vf, include_path_flags := ipf
           library_path_flags := lpf, link_library_flags := llf
           show_wrapper_flags := swf, info_by_command := [], info_by_role := [] }] }

/-- `CompilerFamily.members` on a role key: the preference-ordered list for
the role, `none` embedding the `KeyError` on an unfilled role. -/
def CompilerFamily.members_role (fam : CompilerFamily) (role : CompilerRole) :
    Option (List CompilerInfo) :=
  (fam.info_by_role.find? (fun p => p.1 == role.keyword)).map (fun p => p.2)

/-- `CompilerFamily.members` on a command-string key. -/
def CompilerFamily.members_command (fam : CompilerFamily) (c : String) :
    Option CompilerInfo :=
  (fam.info_by_command.find? (fun p => p.1 == c)).map (fun p => p.2)

/-- `CompilerRole.tau_required`: the roles whose `required` flag is set, in
registration order. -/
def CompilerRole.tau_required (roles : List CompilerRole) : List CompilerRole :=
  roles.filter (fun r => r.required)

/-- `CompilerFamily.all()`: yield the host's preferred family first, then
every other registered family.  The preferred family is determined by a
host-policy lookup outside this module, so it is a parameter here. -/
def CompilerFamily.allFrom (preferred : CompilerFamily)
    (instances : List CompilerFamily) : List CompilerFamily :=
  preferred :: instances.filter (fun f => f != preferred)

/-- The registry-building operations available to the seed tables. -/
inductive Op where
  | role (keyword language : String) (required : Bool)
  | family (name : String) (vf ipf lpf llf swf : List String)
  | add (famName : String) (role : CompilerRole) (cmds : List String)

/-- Run one operation; a failed `add` keeps the state it reached (the
Python exception does not roll anything back). -/
def runOp (st : Registry) : Op → Registry
  | .role k l r => newRole st k l r
  | .family n vf ipf lpf llf swf => newFamily st n vf ipf lpf llf swf
  | .add n role cmds => (famAdd st n role cmds).1

def runOps (st : Registry) (ops : List Op) : Registry :=
  ops.foldl runOp st

def emptyRegistry : Registry :=
  { nextId := 0, allInfos := [], families := [], roles := [] }

/-- `CC_ROLE = CompilerRole('CC', 'C', True)`. -/
def CC_ROLE : CompilerRole := ⟨"CC", "C", true⟩

/-- `CXX_ROLE = CompilerRole('CXX', 'C++', True)`. -/
def CXX_ROLE : CompilerRole := ⟨"CXX", "C++", true⟩

/-- `FC_ROLE = CompilerRole('FC', 'Fortran', True)`. -/
def FC_ROLE : CompilerRole := ⟨"FC", "Fortran", true⟩

/-- `UPC_ROLE = CompilerRole('UPC', 'Universal Parallel C')`. -/
def UPC_ROLE : CompilerRole := ⟨"UPC", "Universal Parallel C", false⟩

/-- The module-level seed tables, in source order (lines 282–318).  The
default flag templates are `['--version'] ['-I'] ['-L'] ['-l'] []`; Cray
overrides `show_wrapper_flags`. -/
def seedOps : List Op := [
  .role "CC" "C" true,
  .role "CXX" "C++" true,
  .role "FC" "Fortran" true,
  .role "UPC" "Universal Parallel C" false,
  .family "System" ["--version"] ["-I"] ["-L"] ["-l"] [],
  .add "System" CC_ROLE ["cc"],
  .add "System" CXX_ROLE ["c++", "cxx", "CC"],
  .add "System" FC_ROLE ["ftn", "f90", "f77"],
  .add "System" UPC_ROLE ["upc"],
  .family "GNU" ["--version"] ["-I"] ["-L"] ["-l"] [],
  .add "GNU" CC_ROLE ["gcc"],
  .add "GNU" CXX_ROLE ["g++"],
  .add "GNU" FC_ROLE ["gfortran"],
  .add "GNU" UPC_ROLE ["gupc"],
  .family "Intel" ["--version"] ["-I"] ["-L"] ["-l"] [],
  .add "Intel" CC_ROLE ["icc"],
  .add "Intel" CXX_ROLE ["icpc"],
  .add "Intel" FC_ROLE ["ifort"],
  .family "PGI" ["--version"] ["-I"] ["-L"] ["-l"] [],
  .add "PGI" CC_ROLE ["pgcc"],
  .add "PGI" CXX_ROLE ["pgc++", "pgcxx", "pgCC"],
  .add "PGI" FC_ROLE ["pgf90", "pgf77"],
  .family "IBM" ["--version"] ["-I"] ["-L"] ["-l"] [],
  .add "IBM" CC_ROLE ["xlc"],
  .add "IBM" CXX_ROLE ["xlc++", "xlC"],
  .add "IBM" FC_ROLE ["xlf"],
  .family "Cray" ["--version"] ["-I"] ["-L"] ["-l"] ["-craype-verbose"],
  .add "Cray" CC_ROLE ["cc"],
  .add "Cray" CXX_ROLE ["CC", "c++", "cxx"],
  .add "Cray" FC_ROLE ["ftn", "f90", "f77"],
  .add "Cray" UPC_ROLE ["upc"]
]

/-- The registry as it stands after module load. -/
def seededRegistry : Registry := runOps emptyRegistry seedOps

/-- `CompilerInfo.all()` after module load: every `CompilerInfo` ever
created, in creation order. -/
def seededIndex : List CompilerInfo := seededRegistry.allInfos

/-- Every entry of every family's command map is keyed by the command string
of the `CompilerInfo` it holds. -/
def MapsWellFormed (st : Registry) : Prop :=
  ∀ f ∈ st.families, ∀ p ∈ f.info_by_command, p.1 = p.2.command

/-- The global index holds exactly the union over all families of their
command maps: a `CompilerInfo` was created (is in the instance collection)
iff it is in its family's command map under its command string. -/
def IndexIsUnion (st : Registry) : Prop :=
  ∀ i : CompilerInfo, i ∈ st.allInfos ↔
    ∃ f ∈ st.families, (i.command, i) ∈ f.info_by_command

/-!
## Flag-list aliasing model

`CompilerFamily.__init__` stores `list(version_flags)` and so on: each
constructed family gets fresh list objects holding copies of the (possibly
shared, possibly defaulted) argument lists.  Python list objects live on a
heap and are mutable; the heap of flag lists is modelled explicitly so that
aliasing (or its absence) is observable: a cell id is a list object's
identity, `writeCell` is an in-place mutation of one list object.
-/

/-- The heap of mutable flag-list objects: an allocation counter and the
store mapping cell ids to list contents. -/
structure FlagHeap where
  nextCell : Nat
  cells : List (Nat × List String)
deriving DecidableEq

/-- First-match lookup in the cell store. -/
def readCellList : List (Nat × List String) → Nat → List String
  | [], _ => []
  | q :: rest, c => if q.1 = c then q.2 else readCellList rest c

/-- Read the contents of a list object. -/
def readCell (h : FlagHeap) (c : Nat) : List String :=
  readCellList h.cells c

/-- Mutate a list object in place (e.g. `family.version_flags.append(x)`
rebinds the contents of the cell, touching no other cell). -/
def writeCell (h : FlagHeap) (c : Nat) (v : List String) : FlagHeap :=
  { h with cells := h.cells.map (fun p => (p.1, if p.1 = c then v else p.2)) }

/-- Allocate a fresh list object holding `v` (what Python's `list(x)` does). -/
def allocCell (h : FlagHeap) (v : List String) : FlagHeap × Nat :=
  ({ nextCell := h.nextCell + 1, cells := h.cells ++ [(h.nextCell, v)] }, h.nextCell)

/-- The five per-instance flag-list objects of one constructed family. -/
structure FamilyFlagCells where
  version_flags : Nat
  include_path_flags : Nat
  library_path_flags : Nat
  link_library_flags : Nat
  show_wrapper_flags : Nat
deriving DecidableEq

/-- `CompilerFamily.__init__` flag handling (source lines 186–190): each of
the five flag-template arguments is copied by `list(...)` into a freshly
allocated per-instance list object. -/
def initFamilyFlags (h : FlagHeap) (vf ipf lpf llf swf : List String) :
    FlagHeap × FamilyFlagCells :=
  let r1 := allocCell h vf
  let r2 := allocCell r1.1 ipf
  let r3 := allocCell r2.1 lpf
  let r4 := allocCell r3.1 llf
  let r5 := allocCell r4.1 swf
  (r5.1, ⟨r1.2, r2.2, r3.2, r4.2, r5.2⟩)

/-- All five flag-list object identities of a constructed family. -/
def FamilyFlagCells.cellList (f : FamilyFlagCells) : List Nat :=
  [f.version_flags, f.include_path_flags, f.library_path_flags,
   f.link_library_flags, f.show_wrapper_flags]

/-- A placeholder family value for total lookups in closed statements. -/
def emptyFamilyV : CompilerFamily := ⟨"", [], [], [], [], [], [], []⟩

/-- The `CompilerInfo` created when `icc` was registered with the Intel
family (the 13th creation, uid 12). -/
def iccInfoV : CompilerInfo := ⟨12, "icc", "Intel", CC_ROLE, "Intel C compiler"⟩

/-- The `CompilerInfo` created when `gcc` was registered with the GNU
family (uid 8). -/
def gccInfoV : CompilerInfo := ⟨8, "gcc", "GNU", CC_ROLE, "GNU C compiler"⟩

/-- The `CompilerInfo` created when `cc` was registered with the System
family (the very first creation, uid 0). -/
def systemCcInfoV : CompilerInfo := ⟨0, "cc", "System", CC_ROLE, "System C compiler"⟩

/-- The `CompilerInfo` created when `cc` was registered a second time, with
the Cray family (uid 25). -/
def crayCcInfoV : CompilerInfo := ⟨25, "cc", "Cray", CC_ROLE, "Cray C compiler"⟩

/-- The System family as registered at module load. -/
def systemFamilyV : CompilerFamily := (lookupFam seededRegistry "System").getD emptyFamilyV

/-- The GNU family as registered at module load. -/
def gnuFamilyV : CompilerFamily := (lookupFam seededRegistry "GNU").getD emptyFamilyV

/-- The Cray family as registered at module load. -/
def crayFamilyV : CompilerFamily := (lookupFam seededRegistry "Cray").getD emptyFamilyV

/-!
## Helper lemmas
-/

theorem maxByLen_cons (c x : CompilerInfo) (cs : List CompilerInfo) :
    maxByLen c (x :: cs) =
      maxByLen (if c.command.length < x.command.length then x else c) cs := rfl

theorem maxByLen_head_le (cs : List CompilerInfo) :
    ∀ c : CompilerInfo, c.command.length ≤ (maxByLen c cs).command.length := by
  induction cs with
  | nil => intro c; exact Nat.le_refl _
  | cons x cs ih =>
    intro c
    rw [maxByLen_cons]
    by_cases hcx : c.command.length < x.command.length
    · rw [if_pos hcx]
      exact Nat.le_trans (Nat.le_of_lt hcx) (ih x)
    · rw [if_neg hcx]
      exact ih c

theorem maxByLen_split (cs : List CompilerInfo) : ∀ c : CompilerInfo,
    ∃ l1 l2, c :: cs = l1 ++ maxByLen c cs :: l2 ∧
      (∀ x ∈ l1, x.command.length < (maxByLen c cs).command.length) ∧
      (∀ x ∈ l2, x.command.length ≤ (maxByLen c cs).command.length) := by
  induction cs with
  | nil =>
    intro c
    refine ⟨[], [], rfl, ?_, ?_⟩
    · intro x hx; exact absurd hx (List.not_mem_nil x)
    · intro x hx; exact absurd hx (List.not_mem_nil x)
  | cons x cs ih =>
    intro c
    rw [maxByLen_cons]
    by_cases hcx : c.command.length < x.command.length
    · rw [if_pos hcx]
      obtain ⟨l1, l2, heq, h1, h2⟩ := ih x
      refine ⟨c :: l1, l2, ?_, ?_, h2⟩
      · rw [List.cons_append, ← heq]
      · intro y hy
        rcases List.mem_cons.mp hy with rfl | hy
        · exact Nat.lt_of_lt_of_le hcx (maxByLen_head_le cs x)
        · exact h1 y hy
    · rw [if_neg hcx]
      obtain ⟨l1, l2, heq, h1, h2⟩ := ih c
      cases l1 with
      | nil =>
        rw [List.nil_append] at heq
        injection heq with hcm hcl
        refine ⟨[], x :: cs, ?_, ?_, ?_⟩
        · rw [List.nil_append, ← hcm]
        · intro y hy; exact absurd hy (List.not_mem_nil y)
        · intro y hy
          rcases List.mem_cons.mp hy with rfl | hy
          · rw [← hcm]; exact Nat.le_of_not_lt hcx
          · exact h2 y (hcl ▸ hy)
      | cons h t =>
        rw [List.cons_append] at heq
        injection heq with hch hcl
        have hcm : c.command.length < (maxByLen c cs).command.length := by
          have := h1 h (List.mem_cons_self h t)
          rw [← hch] at this
          exact this
        refine ⟨c :: x :: t, l2, ?_, ?_, h2⟩
        · rw [List.cons_append, List.cons_append, ← hcl]
        · intro y hy
          rcases List.mem_cons.mp hy with rfl | hy
          · exact hcm
          rcases List.mem_cons.mp hy with rfl | hy
          · exact Nat.lt_of_le_of_lt (Nat.le_of_not_lt hcx) hcm
          · exact h1 y (List.mem_cons_of_mem h hy)

theorem maxByLen_spec (c : CompilerInfo) (cs : List CompilerInfo) :
    maxByLen c cs ∈ c :: cs ∧
      ∀ x ∈ c :: cs, x.command.length ≤ (maxByLen c cs).command.length := by
  obtain ⟨l1, l2, heq, h1, h2⟩ := maxByLen_split cs c
  constructor
  · rw [heq]
    exact List.mem_append_right _ (List.mem_cons_self _ _)
  · intro x hx
    rw [heq] at hx
    rcases List.mem_append.mp hx with hx | hx
    · exact Nat.le_of_lt (h1 x hx)
    · rcases List.mem_cons.mp hx with rfl | hx
      · exact Nat.le_refl _
      · exact h2 x hx

theorem find_eq_of_find?_some {index : List CompilerInfo} {input : String}
    {i : CompilerInfo}
    (h : index.find? (fun x => x.command == basename input) = some i) :
    CompilerInfo.find index input = Except.ok i := by
  unfold CompilerInfo.find
  rw [h]

theorem find_eq_of_approx {index : List CompilerInfo} {input : String}
    {c : CompilerInfo} {cs : List CompilerInfo}
    (hnone : index.find? (fun x => x.command == basename input) = none)
    (hfil : index.filter (fun i => containsSub i.command.data (basename input).data) = c :: cs) :
    CompilerInfo.find index input = Except.ok (maxByLen c cs) := by
  unfold CompilerInfo.find
  rw [hnone, hfil]

theorem find_eq_err {index : List CompilerInfo} {input : String}
    (hnone : index.find? (fun x => x.command == basename input) = none)
    (hfil : index.filter (fun i => containsSub i.command.data (basename input).data) = []) :
    CompilerInfo.find index input = Except.error FindError.notFound := by
  unfold CompilerInfo.find
  rw [hnone, hfil]

/-!
## Claim theorems — lookup (`CompilerInfo.find`)
-/

/-- C1 (amended): exact match always wins — for any input whose final path
segment equals the command of a registered `CompilerInfo`, `find` returns
the earliest-created registered `CompilerInfo` whose command string equals
the stripped input (every earlier-created instance has a different
command); when exactly one registered `CompilerInfo` has that command
string, the result is exactly the instance created when that command was
registered. -/
theorem find_exact_match_wins (index : List CompilerInfo) (input : String)
    (i : CompilerInfo) (hmem : i ∈ index) (hcmd : i.command = basename input) :
    ∃ j l1 l2, CompilerInfo.find index input = Except.ok j ∧
      index = l1 ++ j :: l2 ∧ j.command = basename input ∧
      (∀ x ∈ l1, x.command ≠ basename input) ∧
      ((∀ k ∈ index, k.command = basename input → k = i) → j = i) := by
  have hsome : (index.find? (fun x => x.command == basename input)).isSome := by
    rw [List.find?_isSome]
    exact ⟨i, hmem, by simp [hcmd]⟩
  obtain ⟨j, hj⟩ := Option.isSome_iff_exists.mp hsome
  obtain ⟨hpj, l1, l2, heq, hl1⟩ := List.find?_eq_some.mp hj
  refine ⟨j, l1, l2, find_eq_of_find?_some hj, heq, by simpa using hpj, ?_, ?_⟩
  · intro x hx
    have := hl1 x hx
    simpa using this
  · intro huniq
    exact huniq j (List.mem_of_find?_eq_some hj) (by simpa using hpj)

/-- C1 witness: `find("/usr/bin/icc")` strips the path and returns exactly
the `CompilerInfo` created when `icc` was registered (its command string is
unique across families). -/
theorem find_exact_match_wins_witness :
    ∃ j l1 l2, CompilerInfo.find seededIndex "/usr/bin/icc" = Except.ok j ∧
      seededIndex = l1 ++ j :: l2 ∧ j.command = basename "/usr/bin/icc" ∧
      (∀ x ∈ l1, x.command ≠ basename "/usr/bin/icc") ∧
      ((∀ k ∈ seededIndex, k.command = basename "/usr/bin/icc" → k = iccInfoV) →
        j = iccInfoV) :=
  find_exact_match_wins seededIndex "/usr/bin/icc" iccInfoV (by decide) (by decide)

/-- C1 counterexample: `cc` is a registered command of the Cray family, yet
`find("cc")` does not return the `CompilerInfo` created for that
registration — it returns the System family's earlier `cc` instance. -/
theorem find_exact_cc_counterexample :
    crayFamilyV.members_command "cc" = some crayCcInfoV ∧
    crayFamilyV ∈ seededRegistry.families ∧
    CompilerInfo.find seededIndex "cc" = Except.ok systemCcInfoV ∧
    systemCcInfoV ≠ crayCcInfoV := by
  refine ⟨by decide, by decide, by decide, by decide⟩

/-- C2: approximate match selects the longest substring — when no
registered command equals the stripped input but some registered command is
a substring of it, `find` succeeds with a candidate of maximal command
length; in particular `find("gcc-4.7-x86_64")` returns the `CompilerInfo`
created for `gcc`, whose family is GNU and role is CC. -/
theorem find_approx_longest (index : List CompilerInfo) (input : String)
    (hnoexact : ∀ i ∈ index, i.command ≠ basename input)
    (j : CompilerInfo) (hjmem : j ∈ index)
    (hjsub : containsSub j.command.data (basename input).data = true) :
    (∃ m, CompilerInfo.find index input = Except.ok m ∧ m ∈ index ∧
      containsSub m.command.data (basename input).data = true ∧
      ∀ k ∈ index, containsSub k.command.data (basename input).data = true →
        k.command.length ≤ m.command.length) ∧
    CompilerInfo.find seededIndex "gcc-4.7-x86_64" = Except.ok gccInfoV ∧
    gccInfoV.command = "gcc" ∧ gccInfoV.familyName = "GNU" ∧ gccInfoV.role = CC_ROLE := by
  refine ⟨?_, by decide, by decide, by decide, by decide⟩
  have hnone : index.find? (fun x => x.command == basename input) = none := by
    rw [List.find?_eq_none]
    intro x hx
    simpa using hnoexact x hx
  have hjf : j ∈ index.filter (fun i => containsSub i.command.data (basename input).data) :=
    List.mem_filter.mpr ⟨hjmem, hjsub⟩
  cases hfil : index.filter (fun i => containsSub i.command.data (basename input).data) with
  | nil =>
    rw [hfil] at hjf
    exact absurd hjf (List.not_mem_nil j)
  | cons c cs =>
    obtain ⟨hmem, hle⟩ := maxByLen_spec c cs
    have hmf : maxByLen c cs ∈
        index.filter (fun i => containsSub i.command.data (basename input).data) := by
      rw [hfil]; exact hmem
    refine ⟨maxByLen c cs, find_eq_of_approx hnone hfil,
      (List.mem_filter.mp hmf).1, (List.mem_filter.mp hmf).2, ?_⟩
    intro k hk hksub
    have : k ∈ c :: cs := by
      rw [← hfil]
      exact List.mem_filter.mpr ⟨hk, hksub⟩
    exact hle k this

/-- C2 witness: instantiated at `gcc-4.7-x86_64` with candidate `gcc`. -/
theorem find_approx_longest_witness :
    (∃ m, CompilerInfo.find seededIndex "gcc-4.7-x86_64" = Except.ok m ∧ m ∈ seededIndex ∧
      containsSub m.command.data (basename "gcc-4.7-x86_64").data = true ∧
      ∀ k ∈ seededIndex,
        containsSub k.command.data (basename "gcc-4.7-x86_64").data = true →
          k.command.length ≤ m.command.length) ∧
    CompilerInfo.find seededIndex "gcc-4.7-x86_64" = Except.ok gccInfoV ∧
    gccInfoV.command = "gcc" ∧ gccInfoV.familyName = "GNU" ∧ gccInfoV.role = CC_ROLE :=
  find_approx_longest seededIndex "gcc-4.7-x86_64" (by decide) gccInfoV (by decide) (by decide)

/-- C3: `find` fails with `NotFound` exactly when no registered command
string equals the stripped input and none is a substring of it; in
particular `find("does-not-exist")` fails with `NotFound`. -/
theorem find_notFound_iff (index : List CompilerInfo) (input : String) :
    (CompilerInfo.find index input = Except.error FindError.notFound ↔
      (∀ i ∈ index, i.command ≠ basename input) ∧
      (∀ i ∈ index, containsSub i.command.data (basename input).data = false)) ∧
    CompilerInfo.find seededIndex "does-not-exist" = Except.error FindError.notFound := by
  refine ⟨⟨?_, ?_⟩, by decide⟩
  · intro herr
    cases hfind : index.find? (fun x => x.command == basename input) with
    | some i =>
      rw [find_eq_of_find?_some hfind] at herr
      exact absurd herr (by simp)
    | none =>
      cases hfil : index.filter (fun i => containsSub i.command.data (basename input).data) with
      | cons c cs =>
        rw [find_eq_of_approx hfind hfil] at herr
        exact absurd herr (by simp)
      | nil =>
        constructor
        · intro i hi
          have := List.find?_eq_none.mp hfind i hi
          simpa using this
        · intro i hi
          have := List.filter_eq_nil_iff.mp hfil i hi
          simpa using this
  · rintro ⟨hne, hns⟩
    have hnone : index.find? (fun x => x.command == basename input) = none := by
      rw [List.find?_eq_none]
      intro x hx
      simpa using hne x hx
    have hfil : index.filter (fun i => containsSub i.command.data (basename input).data) = [] := by
      rw [List.filter_eq_nil_iff]
      intro x hx
      simp [hns x hx]
    exact find_eq_err hnone hfil

/-- C10: the approximate-match tie-break is deterministic — when `find`
falls back to substring matching, the result is the candidate appearing
earliest in the candidate list (which preserves global registration order):
every earlier candidate has a strictly shorter command string, every later
one is no longer.  `find` itself is a function of the registry and input,
hence deterministic. -/
theorem find_tie_breaks_earliest (index : List CompilerInfo) (input : String)
    (hnoexact : ∀ i ∈ index, i.command ≠ basename input)
    (m : CompilerInfo) (hm : CompilerInfo.find index input = Except.ok m) :
    ∃ l1 l2,
      index.filter (fun i => containsSub i.command.data (basename input).data) =
        l1 ++ m :: l2 ∧
      (∀ x ∈ l1, x.command.length < m.command.length) ∧
      (∀ x ∈ l2, x.command.length ≤ m.command.length) := by
  have hnone : index.find? (fun x => x.command == basename input) = none := by
    rw [List.find?_eq_none]
    intro x hx
    simpa using hnoexact x hx
  cases hfil : index.filter (fun i => containsSub i.command.data (basename input).data) with
  | nil =>
    rw [find_eq_err hnone hfil] at hm
    exact absurd hm (by simp)
  | cons c cs =>
    rw [find_eq_of_approx hnone hfil] at hm
    injection hm with hmm
    obtain ⟨l1, l2, heq, h1, h2⟩ := maxByLen_split cs c
    rw [hmm] at heq h1 h2
    exact ⟨l1, l2, heq, h1, h2⟩

/-- C10 witness: on `icc-xlc-x` the candidates are `cc` (System), `icc`,
`xlc` and `cc` (Cray); `icc` and `xlc` tie at length 3 and the
earliest-registered one, `icc`, is returned. -/
theorem find_tie_breaks_earliest_witness :
    ∃ l1 l2,
      seededIndex.filter
          (fun i => containsSub i.command.data (basename "icc-xlc-x").data) =
        l1 ++ iccInfoV :: l2 ∧
      (∀ x ∈ l1, x.command.length < iccInfoV.command.length) ∧
      (∀ x ∈ l2, x.command.length ≤ iccInfoV.command.length) :=
  find_tie_breaks_earliest seededIndex "icc-xlc-x" (by decide) iccInfoV (by decide)

/-!
## Claim theorems — registration (`CompilerFamily.add`)
-/

/-- C4 (amended): an `add` call that includes an already-registered command
fails with `DuplicateRegistration` at the first such command, but the call
is not atomic — commands earlier in the same call stay registered.  When
the already-registered command is the first of the call (in particular when
`add` is called a second time with the same single command), the registry
state is exactly unchanged. -/
theorem add_duplicate_first_unmutated (st : Registry) (name : String)
    (role : CompilerRole) (fam : CompilerFamily) (c : String) (cs : List String)
    (hfam : lookupFam st name = some fam) (hdup : hasCommand fam c = true) :
    famAdd st name role (c :: cs) = (st, some (AddError.duplicate c name)) := by
  unfold famAdd
  rw [hfam]
  simp [hdup]

/-- C4 witness: re-adding `cc` to the System family fails with
`DuplicateRegistration` and returns the registry unchanged. -/
theorem add_duplicate_first_unmutated_witness :
    famAdd seededRegistry "System" CC_ROLE ["cc"] =
      (seededRegistry, some (AddError.duplicate "cc" "System")) :=
  add_duplicate_first_unmutated seededRegistry "System" CC_ROLE systemFamilyV "cc" []
    (by decide) (by decide)

/-- C4 counterexample: the call `add(CC_ROLE, "zzz", "cc")` on the System
family includes the already-registered command `cc`, fails with
`DuplicateRegistration` — and still mutates the family: `zzz` is registered
afterwards, so the command map is not as it was before the failing call. -/
theorem add_duplicate_not_atomic_counterexample :
    (famAdd seededRegistry "System" CC_ROLE ["zzz", "cc"]).2 =
      some (AddError.duplicate "cc" "System") ∧
    lookupFam (famAdd seededRegistry "System" CC_ROLE ["zzz", "cc"]).1 "System" ≠
      lookupFam seededRegistry "System" ∧
    ((lookupFam (famAdd seededRegistry "System" CC_ROLE ["zzz", "cc"]).1 "System").getD
        emptyFamilyV).members_command "zzz" ≠ none ∧
    systemFamilyV.members_command "zzz" = none := by
  refine ⟨by decide, by decide, by decide, by decide⟩

/-!
## Claim theorems — global index invariant
-/

theorem famAddOne_wf {st : Registry} {name : String} {role : CompilerRole}
    {c : String} (hwf : MapsWellFormed st) :
    MapsWellFormed (famAddOne st name role c) := by
  intro f2 hf2 p hp
  simp only [famAddOne] at hf2
  obtain ⟨f, hf, rfl⟩ := List.mem_map.mp hf2
  by_cases hn : f.name = name
  · simp only [if_pos hn, famInsert] at hp
    rcases List.mem_append.mp hp with hp | hp
    · exact hwf f hf p hp
    · rw [List.mem_singleton] at hp
      subst hp
      simp [mkInfo]
  · simp only [if_neg hn] at hp
    exact hwf f hf p hp

theorem famAddOne_union {st : Registry} {name : String} {role : CompilerRole}
    {c : String} (hex : ∃ f ∈ st.families, f.name = name)
    (hun : IndexIsUnion st) : IndexIsUnion (famAddOne st name role c) := by
  intro i
  simp only [famAddOne]
  constructor
  · intro hi
    rcases List.mem_append.mp hi with hi | hi
    · obtain ⟨f, hf, hpf⟩ := (hun i).mp hi
      refine ⟨(fun f => if f.name = name then
          famInsert f c role (mkInfo st.nextId c name role) else f) f,
        List.mem_map_of_mem _ hf, ?_⟩
      by_cases hn : f.name = name
      · simp only [if_pos hn, famInsert]
        exact List.mem_append_left _ hpf
      · simp only [if_neg hn]
        exact hpf
    · rw [List.mem_singleton] at hi
      subst hi
      obtain ⟨f0, hf0, hname⟩ := hex
      refine ⟨(fun f => if f.name = name then
          famInsert f c role (mkInfo st.nextId c name role) else f) f0,
        List.mem_map_of_mem _ hf0, ?_⟩
      simp only [if_pos hname, famInsert]
      exact List.mem_append_right _ (by simp [mkInfo])
  · rintro ⟨f2, hf2, hpf⟩
    obtain ⟨f, hf, rfl⟩ := List.mem_map.mp hf2
    by_cases hn : f.name = name
    · simp only [if_pos hn, famInsert] at hpf
      rcases List.mem_append.mp hpf with hpf | hpf
      · exact List.mem_append_left _ ((hun i).mpr ⟨f, hf, hpf⟩)
      · rw [List.mem_singleton, Prod.mk.injEq] at hpf
        exact List.mem_append_right _ (by simp [hpf.2])
    · simp only [if_neg hn] at hpf
      exact List.mem_append_left _ ((hun i).mpr ⟨f, hf, hpf⟩)

theorem famAdd_inv (name : String) (role : CompilerRole) :
    ∀ (cmds : List String) (st : Registry), MapsWellFormed st → IndexIsUnion st →
      MapsWellFormed (famAdd st name role cmds).1 ∧
        IndexIsUnion (famAdd st name role cmds).1 := by
  intro cmds
  induction cmds with
  | nil =>
    intro st hwf hun
    exact ⟨hwf, hun⟩
  | cons c cs ih =>
    intro st hwf hun
    unfold famAdd
    cases hlk : lookupFam st name with
    | none => exact ⟨hwf, hun⟩
    | some fam =>
      by_cases hd : hasCommand fam c = true
      · simp only [if_pos hd]
        exact ⟨hwf, hun⟩
      · simp only [if_neg hd]
        have hex : ∃ f ∈ st.families, f.name = name := by
          refine ⟨fam, List.mem_of_find?_eq_some hlk, ?_⟩
          have := List.find?_some hlk
          simpa using this
        exact ih (famAddOne st name role c) (famAddOne_wf hwf) (famAddOne_union hex hun)

theorem newRole_families (st : Registry) (k l : String) (r : Bool) :
    (newRole st k l r).families = st.families := by
  unfold newRole
  split <;> rfl

theorem newRole_allInfos (st : Registry) (k l : String) (r : Bool) :
    (newRole st k l r).allInfos = st.allInfos := by
  unfold newRole
  split <;> rfl

theorem newRole_inv (st : Registry) (k l : String) (r : Bool)
    (hwf : MapsWellFormed st) (hun : IndexIsUnion st) :
    MapsWellFormed (newRole st k l r) ∧ IndexIsUnion (newRole st k l r) := by
  constructor
  · intro f hf
    rw [newRole_families] at hf
    exact hwf f hf
  · intro i
    rw [newRole_allInfos, newRole_families]
    exact hun i

theorem newFamily_inv (st : Registry) (n : String) (vf ipf lpf llf swf : List String)
    (hwf : MapsWellFormed st) (hun : IndexIsUnion st) :
    MapsWellFormed (newFamily st n vf ipf lpf llf swf) ∧
      IndexIsUnion (newFamily st n vf ipf lpf llf swf) := by
  unfold newFamily
  split
  · exact ⟨hwf, hun⟩
  · constructor
    · intro f hf p hp
      rcases List.mem_append.mp hf with hf | hf
      · exact hwf f hf p hp
      · rw [List.mem_singleton] at hf
        subst hf
        exact absurd hp (List.not_mem_nil p)
    · intro i
      constructor
      · intro hi
        obtain ⟨f, hf, hpf⟩ := (hun i).mp hi
        exact ⟨f, List.mem_append_left _ hf, hpf⟩
      · rintro ⟨f, hf, hpf⟩
        rcases List.mem_append.mp hf with hf | hf
        · exact (hun i).mpr ⟨f, hf, hpf⟩
        · rw [List.mem_singleton] at hf
          subst hf
          exact absurd hpf (List.not_mem_nil _)

theorem runOp_inv (st : Registry) (op : Op)
    (hwf : MapsWellFormed st) (hun : IndexIsUnion st) :
    MapsWellFormed (runOp st op) ∧ IndexIsUnion (runOp st op) := by
  cases op with
  | role k l r => exact newRole_inv st k l r hwf hun
  | family n vf ipf lpf llf swf => exact newFamily_inv st n vf ipf lpf llf swf hwf hun
  | add n role cmds => exact famAdd_inv n role cmds st hwf hun

theorem runOps_inv (ops : List Op) :
    ∀ st : Registry, MapsWellFormed st → IndexIsUnion st →
      MapsWellFormed (runOps st ops) ∧ IndexIsUnion (runOps st ops) := by
  induction ops with
  | nil =>
    intro st hwf hun
    exact ⟨hwf, hun⟩
  | cons op ops ih =>
    intro st hwf hun
    have h := runOp_inv st op hwf hun
    exact ih (runOp st op) h.1 h.2

/-- C5: the global-index invariant — after any sequence of role or family
constructions and `add` calls (including failed ones), starting from the
empty registry, the instance collection (`CompilerInfo.all()`, the global
index) holds exactly the union over all families of their command maps:
every `CompilerInfo` ever created sits in its family's command map under
its own command string, and conversely. -/
theorem global_index_invariant (ops : List Op) :
    MapsWellFormed (runOps emptyRegistry ops) ∧
    ∀ i : CompilerInfo, i ∈ (runOps emptyRegistry ops).allInfos ↔
      ∃ f ∈ (runOps emptyRegistry ops).families, (i.command, i) ∈ f.info_by_command := by
  have hwf0 : MapsWellFormed emptyRegistry := by
    intro f hf
    exact absurd hf (List.not_mem_nil f)
  have hun0 : IndexIsUnion emptyRegistry := by
    intro i
    simp [emptyRegistry]
  exact runOps_inv ops emptyRegistry hwf0 hun0

/-!
## Claim theorems — flag-list independence, families, roles
-/

theorem readCellList_write (c cp : Nat) (v : List String) (hne : c ≠ cp) :
    ∀ l : List (Nat × List String),
      readCellList (l.map (fun q => (q.1, if q.1 = c then v else q.2))) cp =
        readCellList l cp := by
  intro l
  induction l with
  | nil => rfl
  | cons q rest ih =>
    simp only [List.map_cons, readCellList]
    by_cases hk : q.1 = cp
    · rw [if_pos hk, if_pos hk, if_neg (by rw [hk]; exact fun h => hne h.symm)]
    · rw [if_neg hk, if_neg hk]
      exact ih

theorem readCell_writeCell_ne (h : FlagHeap) (c cp : Nat) (v : List String)
    (hne : c ≠ cp) : readCell (writeCell h c v) cp = readCell h cp := by
  unfold readCell writeCell
  exact readCellList_write c cp v hne h.cells

theorem initFamilyFlags_cells (h : FlagHeap) (a1 a2 a3 a4 a5 : List String) :
    (initFamilyFlags h a1 a2 a3 a4 a5).2 =
      ⟨h.nextCell, h.nextCell + 1, h.nextCell + 2, h.nextCell + 3, h.nextCell + 4⟩ ∧
    (initFamilyFlags h a1 a2 a3 a4 a5).1.nextCell = h.nextCell + 5 :=
  ⟨rfl, rfl⟩

/-- C6: per-instance flag-list independence — construct two families in
sequence, with arbitrary (in particular identical or defaulted)
flag-template arguments; because `__init__` copies each argument with
`list(...)` into a freshly allocated object, mutating any flag list of
either family leaves every flag list of the other family unchanged. -/
theorem flag_lists_independent (h0 : FlagHeap)
    (a1 a2 a3 a4 a5 b1 b2 b3 b4 b5 : List String) (ca cb : Nat) (v : List String)
    (hca : ca ∈ ((initFamilyFlags h0 a1 a2 a3 a4 a5).2).cellList)
    (hcb : cb ∈ ((initFamilyFlags (initFamilyFlags h0 a1 a2 a3 a4 a5).1
        b1 b2 b3 b4 b5).2).cellList) :
    readCell (writeCell (initFamilyFlags (initFamilyFlags h0 a1 a2 a3 a4 a5).1
        b1 b2 b3 b4 b5).1 ca v) cb =
      readCell (initFamilyFlags (initFamilyFlags h0 a1 a2 a3 a4 a5).1
        b1 b2 b3 b4 b5).1 cb ∧
    readCell (writeCell (initFamilyFlags (initFamilyFlags h0 a1 a2 a3 a4 a5).1
        b1 b2 b3 b4 b5).1 cb v) ca =
      readCell (initFamilyFlags (initFamilyFlags h0 a1 a2 a3 a4 a5).1
        b1 b2 b3 b4 b5).1 ca := by
  have h1 := initFamilyFlags_cells h0 a1 a2 a3 a4 a5
  have h2 := initFamilyFlags_cells (initFamilyFlags h0 a1 a2 a3 a4 a5).1 b1 b2 b3 b4 b5
  have hne : ca ≠ cb := by
    rw [h1.1] at hca
    rw [h2.1, h1.2] at hcb
    simp [FamilyFlagCells.cellList] at hca hcb
    rcases hca with h | h | h | h | h <;> rcases hcb with g | g | g | g | g <;> omega
  exact ⟨readCell_writeCell_ne _ ca cb v hne, readCell_writeCell_ne _ cb ca v hne.symm⟩

/-- C6 witness: two families constructed from the empty heap with the
documented default flag templates; mutating the first family's
version-flags cell (id 0) does not affect the second family's
version-flags cell (id 5), and vice versa. -/
theorem flag_lists_independent_witness :
    readCell (writeCell (initFamilyFlags (initFamilyFlags ⟨0, []⟩
        ["--version"] ["-I"] ["-L"] ["-l"] []).1
        ["--version"] ["-I"] ["-L"] ["-l"] []).1 0 ["-xyz"]) 5 =
      readCell (initFamilyFlags (initFamilyFlags ⟨0, []⟩
        ["--version"] ["-I"] ["-L"] ["-l"] []).1
        ["--version"] ["-I"] ["-L"] ["-l"] []).1 5 ∧
    readCell (writeCell (initFamilyFlags (initFamilyFlags ⟨0, []⟩
        ["--version"] ["-I"] ["-L"] ["-l"] []).1
        ["--version"] ["-I"] ["-L"] ["-l"] []).1 5 ["-xyz"]) 0 =
      readCell (initFamilyFlags (initFamilyFlags ⟨0, []⟩
        ["--version"] ["-I"] ["-L"] ["-l"] []).1
        ["--version"] ["-I"] ["-L"] ["-l"] []).1 0 :=
  flag_lists_independent ⟨0, []⟩ ["--version"] ["-I"] ["-L"] ["-l"] []
    ["--version"] ["-I"] ["-L"] ["-l"] [] 0 5 ["-xyz"] (by decide) (by decide)

theorem seeded_families_nodup : seededRegistry.families.Nodup := by decide

/-- C7: `allFamilies` ordering and completeness — for any designated
preferred family among the six seeded families, the iteration yields the
preferred family first, and overall yields exactly the six seeded families
each exactly once (a permutation with no duplicates).  The iteration is a
pure function of the registry and the preferred family, so two successive
iterations yield the same sequence, in particular the same first family. -/
theorem all_families_preferred_first (p : CompilerFamily)
    (hp : p ∈ seededRegistry.families) :
    (CompilerFamily.allFrom p seededRegistry.families).head? = some p ∧
    (CompilerFamily.allFrom p seededRegistry.families).Perm seededRegistry.families ∧
    (CompilerFamily.allFrom p seededRegistry.families).Nodup ∧
    (CompilerFamily.allFrom p seededRegistry.families).length = 6 := by
  have hnd : seededRegistry.families.Nodup := seeded_families_nodup
  have hperm : (CompilerFamily.allFrom p seededRegistry.families).Perm
      seededRegistry.families := by
    unfold CompilerFamily.allFrom
    rw [← hnd.erase_eq_filter p]
    exact (List.perm_cons_erase hp).symm
  refine ⟨rfl, hperm, hperm.symm.nodup hnd, ?_⟩
  rw [hperm.length_eq]
  decide

/-- C7 witness: instantiated with the GNU family as the host-preferred
family. -/
theorem all_families_preferred_first_witness :
    (CompilerFamily.allFrom gnuFamilyV seededRegistry.families).head? = some gnuFamilyV ∧
    (CompilerFamily.allFrom gnuFamilyV seededRegistry.families).Perm
      seededRegistry.families ∧
    (CompilerFamily.allFrom gnuFamilyV seededRegistry.families).Nodup ∧
    (CompilerFamily.allFrom gnuFamilyV seededRegistry.families).length = 6 :=
  all_families_preferred_first gnuFamilyV (by decide)

/-- C8: with the four seeded roles registered, `tau_required` yields
exactly the CC, CXX and FC roles, each exactly once, and never the UPC
role.  It is a pure function of the role registry (registration order of
families never enters), so its output does not depend on call order. -/
theorem required_roles_exact :
    CompilerRole.tau_required seededRegistry.roles = [CC_ROLE, CXX_ROLE, FC_ROLE] ∧
    UPC_ROLE ∉ CompilerRole.tau_required seededRegistry.roles ∧
    (CompilerRole.tau_required seededRegistry.roles).Nodup := by
  refine ⟨by decide, by decide, by decide⟩

/-- C9: role preference order is preserved — on the seeded System family,
`members` applied to the CXX role returns exactly the `CompilerInfo`
objects created for `c++`, `cxx` and `CC`, in that insertion order. -/
theorem members_cxx_system_order :
    lookupFam seededRegistry "System" = some systemFamilyV ∧
    systemFamilyV.members_role CXX_ROLE =
      some [⟨1, "c++", "System", CXX_ROLE, "System C++ compiler"⟩,
            ⟨2, "cxx", "System", CXX_ROLE, "System C++ compiler"⟩,
            ⟨3, "CC", "System", CXX_ROLE, "System C++ compiler"⟩] := by
  refine ⟨by decide, by decide⟩
